import Mathlib

/-!
Verification development for the CoastSat shoreline-extraction and
transect-intersection pipeline (spec.md, §3–§4.5, §7, §8).

The repository sources available here (the example notebook) only call the
pipeline functions (`SDS_tools.remove_duplicates`,
`SDS_tools.remove_inaccurate_georef`, `SDS_transects.compute_intersection`,
the quality filter driven by `min_length_sl` / `max_dist_ref`, the classifier
driven by `sand_color`); the bodies of those functions live in the `coastsat`
package, which is not part of the sources.  Every such component is therefore
modelled from the specification text, as noted on each definition.

Conventions of the embedding:
* coordinates are rational numbers; a `Point` is a pair `(x, y) : ℚ × ℚ`;
* a transect carries its origin and the direction of its local axis; when the
  direction is a unit vector (`normSq t.dir = 1`, e.g. `(3/5, 4/5)`), the dot
  product `proj` is the exact signed distance along the axis and `|crossT|`
  is the exact perpendicular distance to the transect's infinite line;
* distance comparisons are carried out on squares (`d ≤ r ↔ d² ≤ r²` for
  nonnegative `r`), which keeps every definition executable over ℚ;
* the missing-value marker of a `CrossShoreSeries` entry (floating-point NaN
  in the original) is modelled as `Option.none`;
* fallible pipeline stages return `Option`/`Except` values.
-/

/-- A planar point with rational coordinates. -/
abbrev Point : Type := ℚ × ℚ

/-- Vector difference of two points. -/
def vsub (p q : Point) : Point := (p.1 - q.1, p.2 - q.2)

/-- Dot product of two vectors. -/
def dot (p q : Point) : ℚ := p.1 * q.1 + p.2 * q.2

/-- z-component of the cross product of two planar vectors. -/
def crossZ (p q : Point) : ℚ := p.1 * q.2 - p.2 * q.1

/-- Squared Euclidean norm of a vector. -/
def normSq (p : Point) : ℚ := p.1 ^ 2 + p.2 ^ 2

/-- Modelled from the spec (§3, Data model): a Transect is a named line
segment defining a local axis: origin plus direction.  The name is kept
separately as the key of the transect mapping. -/
structure Transect where
  origin : Point
  dir : Point
deriving DecidableEq

/-- Signed projection of vertex `v` onto the transect's local axis: the dot
product of `v - origin` with the axis direction.  For a unit direction this
is the signed cross-shore distance from the transect origin. -/
def proj (t : Transect) (v : Point) : ℚ := dot (vsub v t.origin) t.dir

/-- Cross product of the transect direction with `v - origin`.  For a unit
direction, `|crossT t v|` is the perpendicular distance of `v` to the
transect's infinite line. -/
def crossT (t : Transect) (v : Point) : ℚ := crossZ t.dir (vsub v t.origin)

/-- Modelled from the spec (§4.5): the along-shore selection test.  A vertex
is selected when its perpendicular distance to the transect's infinite line
is at most `ad`, expressed on squares so that it is executable over ℚ:
`(perp·‖dir‖)² ≤ ad²·‖dir‖²`. -/
def withinAlong (t : Transect) (ad : ℚ) (v : Point) : Bool :=
  decide ((crossT t v) ^ 2 ≤ ad ^ 2 * normSq t.dir)

/-- Modelled from the spec (§3, Data model): a ShorelineContour is an ordered
vertex sequence plus provenance (timestamp, satellite id, georeferencing
accuracy).  Dates and satellite ids are encoded as naturals. -/
structure Contour where
  date : Nat
  satname : Nat
  geoaccuracy : ℚ
  points : List Point
deriving DecidableEq

/-- Default contour used only as the out-of-range value of `List.getD`. -/
def cdflt : Contour := ⟨0, 0, 0, []⟩

/-- Modelled from the spec (§4.5): the median of a list of rationals, as
computed by `np.nanmedian` on the selected values: sort, take the middle
element for odd length, the mean of the two middle elements for even
length.  Returns 0 on the empty list (never used on it). -/
def medianQ (l : List ℚ) : ℚ :=
  let s := l.insertionSort (· ≤ ·)
  if l.length % 2 = 1 then s.getD (l.length / 2) 0
  else (s.getD (l.length / 2 - 1) 0 + s.getD (l.length / 2) 0) / 2

/-- Modelled from the spec (§4.5, `SDS_transects.compute_intersection`, one
transect and one date): select the contour vertices within `ad` of the
transect's line, project them onto the local axis, and return the median of
the signed distances; return the missing-value marker (`none`) when no
vertex is selected. -/
def intersectDate (t : Transect) (ad : ℚ) (pts : List Point) : Option ℚ :=
  let sel := pts.filter (withinAlong t ad)
  if sel.isEmpty then none else some (medianQ (sel.map (proj t)))

/-- Modelled from the spec (§4.5, `SDS_transects.compute_intersection`): for
every named transect, the distance-over-time series over the full date index
of the chronological collection, missing-value entries included. -/
def compute_intersection (coll : List Contour) (ts : List (Nat × Transect))
    (ad : ℚ) : List (Nat × List (Option ℚ)) :=
  ts.map (fun nt => (nt.1, coll.map (fun c => intersectDate nt.2 ad c.points)))

/-- Two contours are duplicates when they share date and satellite id
(spec §4.4). -/
def sameKey (a b : Contour) : Bool :=
  decide (a.date = b.date ∧ a.satname = b.satname)

/-- Modelled from the spec (§4.4, `SDS_tools.remove_duplicates`): an entry is
retained iff no earlier duplicate has accuracy ≤ its own (ties retain the
first encountered) and no later duplicate has strictly lower accuracy. -/
def keepEntry (pre : List Contour) (c : Contour) (post : List Contour) : Bool :=
  pre.all (fun p => !(sameKey p c) || decide (c.geoaccuracy < p.geoaccuracy)) &&
  post.all (fun p => !(sameKey p c) || decide (c.geoaccuracy ≤ p.geoaccuracy))

/-- Recursive worker of `remove_duplicates`; `pre` is the already-examined
prefix of the collection. -/
def dedupAux (pre : List Contour) : List Contour → List Contour
  | [] => []
  | c :: rest =>
    if keepEntry pre c rest then c :: dedupAux (pre ++ [c]) rest
    else dedupAux (pre ++ [c]) rest

/-- Modelled from the spec (§4.4, `SDS_tools.remove_duplicates`): among
entries sharing (date, satellite), only the one with the lowest
georeferencing accuracy is retained, ties broken by the first encountered. -/
def remove_duplicates (l : List Contour) : List Contour := dedupAux [] l

/-- Modelled from the spec (§4.4, `SDS_tools.remove_inaccurate_georef`):
removes entries whose georeferencing accuracy exceeds the threshold. -/
def remove_inaccurate_georef (l : List Contour) (thr : ℚ) : List Contour :=
  l.filter (fun c => decide (c.geoaccuracy ≤ thr))

/-- Modelled from the spec (§4.3(b)): a vertex passes the reference-shoreline
test when some reference vertex is within `maxD` of it (squared form). -/
def nearRef (ref : List Point) (maxD : ℚ) (v : Point) : Bool :=
  ref.any (fun r => decide (normSq (vsub v r) ≤ maxD ^ 2))

/-- Modelled from the spec (§4.3, Quality/Outlier Filter): (a) drop the
contour when its total length is below `minLen`; (b) when a reference
shoreline is configured, drop vertices farther than `maxD` from every
reference vertex, then drop the contour when fewer than 2 vertices survive
or the trimmed contour falls below the length constraint.  The Euclidean
total-length functional (a sum of square roots, irrational over ℚ) is
abstracted as the parameter `len`. -/
def qualityFilter (len : List Point → ℚ) (minLen : ℚ)
    (refSl : Option (List Point)) (maxD : ℚ) (c : Contour) : Option Contour :=
  if len c.points < minLen then none
  else
    match refSl with
    | none => some c
    | some ref =>
      let kept := c.points.filter (nearRef ref maxD)
      if kept.length < 2 ∨ len kept < minLen then none
      else some { c with points := kept }

/-- Modelled from the spec (§2, control flow; §4.3–§4.4): candidate contours
pass the quality filter, are deduplicated, then entries with inaccurate
georeferencing are removed, giving the chronological collection. -/
def chronoCollection (len : List Point → ℚ) (minLen : ℚ)
    (refSl : Option (List Point)) (maxD thr : ℚ)
    (cands : List Contour) : List Contour :=
  remove_inaccurate_georef
    (remove_duplicates (cands.filterMap (qualityFilter len minLen refSl maxD))) thr

/-- Modelled from the spec (§4.1): the substrate modes of the classifier
(the `sand_color` setting: default / dark / bright). -/
inductive SubstrateMode where
  | default
  | dark
  | bright
deriving DecidableEq

/-- Per-pixel labels of the classified raster (spec §3). -/
inductive Label where
  | sand
  | water
  | other
  | unclassified
deriving DecidableEq

/-- A pixel of a scene: water-index value, sand-index value, cloud flag. -/
structure Pixel where
  waterIndex : ℚ
  sandIndex : ℚ
  cloud : Bool
deriving DecidableEq

/-- Modelled from the spec (§4.1): the shift the substrate mode applies to
the sand decision boundary (non-standard beach reflectance). -/
def sandShift : SubstrateMode → ℚ
  | SubstrateMode.default => 0
  | SubstrateMode.dark => -1
  | SubstrateMode.bright => 1

/-- Modelled from the spec (§4.1, Classifier): cloud pixels are unclassified;
water is decided by the water index against a mode-independent threshold; the
substrate mode shifts only the sand decision boundary. -/
def classifyPixel (mode : SubstrateMode) (waterThresh sandThresh : ℚ)
    (p : Pixel) : Label :=
  if p.cloud then Label.unclassified
  else if waterThresh < p.waterIndex then Label.water
  else if sandThresh + sandShift mode < p.sandIndex then Label.sand
  else Label.other

/-- Errors of the checked pipeline entry. -/
inductive PipelineError where
  | crsMismatch
deriving DecidableEq

/-- A value tagged with the coordinate reference system it is expressed in. -/
structure Projected (α : Type) where
  crs : Nat
  val : α
deriving DecidableEq

/-- Modelled from the spec (§3 invariants, §7): the pipeline entry checks
that the scene contours, the reference shoreline and the transects share one
coordinate reference system; a mismatch is a hard failure and no entity is
ever reprojected — on success the pipeline runs on the inputs exactly as
given. -/
def runPipeline (len : List Point → ℚ) (minLen maxD thr ad : ℚ)
    (scene : Projected (List Contour)) (ref : Projected (List Point))
    (trs : Projected (List (Nat × Transect))) :
    Except PipelineError (List (Nat × List (Option ℚ))) :=
  if scene.crs = ref.crs ∧ scene.crs = trs.crs then
    Except.ok (compute_intersection
      (chronoCollection len minLen (some ref.val) maxD thr scene.val)
      trs.val ad)
  else Except.error PipelineError.crsMismatch

/-- A concrete transect with unit axis direction, used in concrete
evaluations: origin at the origin, axis along the x-axis. -/
def exTransect : Transect := ⟨(0, 0), (1, 0)⟩

/-- A concrete contour with a single vertex on the x-axis. -/
def exContour : Contour := ⟨1, 1, 5, [(2, 0)]⟩

/-- A concrete contour whose single vertex is far from `exTransect`. -/
def exFarContour : Contour := ⟨1, 1, 5, [(9, 9)]⟩

/-- A concrete contour whose vertices form a tight cluster on `exTransect`. -/
def exCluster : Contour := ⟨1, 1, 5, [(0, 0), (0, 0), (0, 0)]⟩

/-- The vertex-count length functional, a concrete instance of the abstract
`len` parameter of the quality filter. -/
def countLen (pts : List Point) : ℚ := pts.length

/-! ### Helper lemmas about duplicate keys and the deduplicator -/

lemma sameKey_refl (a : Contour) : sameKey a a = true := by
  simp [sameKey]

lemma sameKey_symm {a b : Contour} (h : sameKey a b = true) : sameKey b a = true := by
  simp only [sameKey, decide_eq_true_eq] at h ⊢
  exact ⟨h.1.symm, h.2.symm⟩

lemma sameKey_trans {a b c : Contour} (h1 : sameKey a b = true)
    (h2 : sameKey b c = true) : sameKey a c = true := by
  simp only [sameKey, decide_eq_true_eq] at h1 h2 ⊢
  exact ⟨h1.1.trans h2.1, h1.2.trans h2.2⟩

lemma keepEntry_iff {pre post : List Contour} {c : Contour} :
    keepEntry pre c post = true ↔
      (∀ p ∈ pre, sameKey p c = true → c.geoaccuracy < p.geoaccuracy) ∧
      (∀ p ∈ post, sameKey p c = true → c.geoaccuracy ≤ p.geoaccuracy) := by
  simp only [keepEntry, Bool.and_eq_true, List.all_eq_true, Bool.or_eq_true,
    Bool.not_eq_true', decide_eq_true_eq]
  constructor
  · rintro ⟨h1, h2⟩
    refine ⟨fun p hp hk => ?_, fun p hp hk => ?_⟩
    · rcases h1 p hp with h | h
      · rw [hk] at h; cases h
      · exact h
    · rcases h2 p hp with h | h
      · rw [hk] at h; cases h
      · exact h
  · rintro ⟨h1, h2⟩
    refine ⟨fun p hp => ?_, fun p hp => ?_⟩
    · cases hk : sameKey p c
      · exact Or.inl rfl
      · exact Or.inr (h1 p hp hk)
    · cases hk : sameKey p c
      · exact Or.inl rfl
      · exact Or.inr (h2 p hp hk)

lemma dedupAux_decomp {l pre : List Contour} {y : Contour}
    (hy : y ∈ dedupAux pre l) :
    ∃ l1 l2, l = l1 ++ y :: l2 ∧
      (∀ p ∈ pre ++ l1, sameKey p y = true → y.geoaccuracy < p.geoaccuracy) ∧
      (∀ p ∈ l2, sameKey p y = true → y.geoaccuracy ≤ p.geoaccuracy) := by
  induction l generalizing pre with
  | nil => simp [dedupAux] at hy
  | cons c rest ih =>
    by_cases hk : keepEntry pre c rest = true
    · rw [dedupAux, if_pos hk] at hy
      rcases List.mem_cons.mp hy with rfl | hy'
      · refine ⟨[], rest, by simp, ?_, (keepEntry_iff.mp hk).2⟩
        simpa using (keepEntry_iff.mp hk).1
      · obtain ⟨l1, l2, hsplit, h1, h2⟩ := ih hy'
        refine ⟨c :: l1, l2, by simp [hsplit], ?_, h2⟩
        intro p hp
        have : p ∈ (pre ++ [c]) ++ l1 := by simpa [List.append_assoc] using hp
        exact h1 p this
    · rw [dedupAux, if_neg hk] at hy
      obtain ⟨l1, l2, hsplit, h1, h2⟩ := ih hy
      refine ⟨c :: l1, l2, by simp [hsplit], ?_, h2⟩
      intro p hp
      have : p ∈ (pre ++ [c]) ++ l1 := by simpa [List.append_assoc] using hp
      exact h1 p this

lemma dedupAux_mem_pre {l pre : List Contour} {y : Contour}
    (hy : y ∈ dedupAux pre l) :
    ∀ p ∈ pre, sameKey p y = true → y.geoaccuracy < p.geoaccuracy := by
  obtain ⟨l1, l2, _, h1, _⟩ := dedupAux_decomp hy
  exact fun p hp => h1 p (List.mem_append_left _ hp)

lemma dedupAux_mem {l pre : List Contour} {y : Contour}
    (hy : y ∈ dedupAux pre l) :
    y ∈ l ∧ ∀ p ∈ l, sameKey p y = true → y.geoaccuracy ≤ p.geoaccuracy := by
  obtain ⟨l1, l2, hsplit, h1, h2⟩ := dedupAux_decomp hy
  subst hsplit
  refine ⟨List.mem_append_right _ (List.mem_cons_self _ _), ?_⟩
  intro p hp hk
  rcases List.mem_append.mp hp with hp' | hp'
  · exact le_of_lt (h1 p (List.mem_append_right _ hp') hk)
  · rcases List.mem_cons.mp hp' with rfl | hp''
    · exact le_refl _
    · exact h2 p hp'' hk

lemma dedupAux_keep {l1 l2 pre : List Contour} {c : Contour}
    (h1 : ∀ p ∈ pre ++ l1, sameKey p c = true → c.geoaccuracy < p.geoaccuracy)
    (h2 : ∀ p ∈ l2, sameKey p c = true → c.geoaccuracy ≤ p.geoaccuracy) :
    c ∈ dedupAux pre (l1 ++ c :: l2) := by
  induction l1 generalizing pre with
  | nil =>
    have hk : keepEntry pre c l2 = true :=
      keepEntry_iff.mpr ⟨fun p hp => h1 p (by simpa using hp), h2⟩
    rw [List.nil_append, dedupAux, if_pos hk]
    exact List.mem_cons_self _ _
  | cons e l1' ih =>
    have hmem : c ∈ dedupAux (pre ++ [e]) (l1' ++ c :: l2) :=
      ih (fun p hp => h1 p (by simpa [List.append_assoc] using hp))
    rw [List.cons_append, dedupAux]
    by_cases hk : keepEntry pre e (l1' ++ c :: l2) = true
    · rw [if_pos hk]; exact List.mem_cons_of_mem _ hmem
    · rw [if_neg hk]; exact hmem

lemma dedupAux_pairwise (l pre : List Contour) :
    (dedupAux pre l).Pairwise (fun a b => sameKey a b = false) := by
  induction l generalizing pre with
  | nil => simp [dedupAux]
  | cons c rest ih =>
    by_cases hk : keepEntry pre c rest = true
    · rw [dedupAux, if_pos hk]
      refine List.pairwise_cons.mpr ⟨?_, ih _⟩
      intro y hy
      cases hcy : sameKey c y with
      | false => rfl
      | true =>
        have hlt : y.geoaccuracy < c.geoaccuracy :=
          dedupAux_mem_pre hy c (List.mem_append_right _ (List.mem_cons_self _ _)) hcy
        have hyrest : y ∈ rest := (dedupAux_mem hy).1
        have hle : c.geoaccuracy ≤ y.geoaccuracy :=
          (keepEntry_iff.mp hk).2 y hyrest (sameKey_symm hcy)
        exact absurd hlt (not_lt.mpr hle)
    · rw [dedupAux, if_neg hk]
      exact ih _

lemma exists_first_min {l : List Contour} {c : Contour} (hc : c ∈ l) :
    ∃ l1 c' l2, l = l1 ++ c' :: l2 ∧ sameKey c c' = true ∧
      (∀ p ∈ l1, sameKey p c' = true → c'.geoaccuracy < p.geoaccuracy) ∧
      (∀ p ∈ l2, sameKey p c' = true → c'.geoaccuracy ≤ p.geoaccuracy) := by
  induction l generalizing c with
  | nil => cases hc
  | cons e rest ih =>
    by_cases hk : sameKey c e = true
    · by_cases hq : ∃ q ∈ rest, sameKey e q = true ∧ q.geoaccuracy < e.geoaccuracy
      · obtain ⟨q, hqrest, hqkey, hqlt⟩ := hq
        obtain ⟨l1', c', l2', hsplit, hkey', hstrict, hle⟩ := ih hqrest
        refine ⟨e :: l1', c', l2', by simp [hsplit], ?_, ?_, hle⟩
        · exact sameKey_trans hk (sameKey_trans hqkey hkey')
        · intro p hp hpk
          rcases List.mem_cons.mp hp with rfl | hp'
          · have hqc' : c'.geoaccuracy ≤ q.geoaccuracy := by
              have hq' : q ∈ l1' ++ c' :: l2' := hsplit ▸ hqrest
              rcases List.mem_append.mp hq' with h' | h'
              · exact le_of_lt (hstrict q h' hkey')
              · rcases List.mem_cons.mp h' with rfl | h''
                · exact le_refl _
                · exact hle q h'' hkey'
            exact lt_of_le_of_lt hqc' hqlt
          · exact hstrict p hp' hpk
      · refine ⟨[], e, rest, by simp, hk, by simp, ?_⟩
        intro p hp hpk
        by_contra hlt
        exact hq ⟨p, hp, sameKey_symm hpk, lt_of_not_le hlt⟩
    · have hc' : c ∈ rest := by
        rcases List.mem_cons.mp hc with rfl | h
        · exact absurd (sameKey_refl c) hk
        · exact h
      obtain ⟨l1', c', l2', hsplit, hkey', hstrict, hle⟩ := ih hc'
      refine ⟨e :: l1', c', l2', by simp [hsplit], hkey', ?_, hle⟩
      intro p hp hpk
      rcases List.mem_cons.mp hp with rfl | hp'
      · exact absurd (sameKey_trans hkey' (sameKey_symm hpk)) hk
      · exact hstrict p hp' hpk

lemma dedupAux_id {l pre : List Contour}
    (hl : l.Pairwise (fun a b => sameKey a b = false))
    (hpre : ∀ p ∈ pre, ∀ c ∈ l, sameKey p c = false) :
    dedupAux pre l = l := by
  induction l generalizing pre with
  | nil => rfl
  | cons c rest ih =>
    have hk : keepEntry pre c rest = true := by
      refine keepEntry_iff.mpr ⟨fun p hp hpk => ?_, fun p hp hpk => ?_⟩
      · rw [hpre p hp c (List.mem_cons_self _ _)] at hpk; cases hpk
      · have hcp := sameKey_symm hpk
        rw [(List.pairwise_cons.mp hl).1 p hp] at hcp
        cases hcp
    rw [dedupAux, if_pos hk]
    congr 1
    refine ih (List.pairwise_cons.mp hl).2 ?_
    intro p hp d hd
    rcases List.mem_append.mp hp with hp' | hp'
    · exact hpre p hp' d (List.mem_cons_of_mem _ hd)
    · rcases List.mem_cons.mp hp' with rfl | h
      · exact (List.pairwise_cons.mp hl).1 d hd
      · cases h

/-! ### Helper lemmas about the median -/

lemma medianQ_odd {l : List ℚ} (h : l.length % 2 = 1) :
    medianQ l = (l.insertionSort (· ≤ ·)).getD (l.length / 2) 0 := by
  simp only [medianQ]
  rw [if_pos h]

lemma medianQ_even {l : List ℚ} (h : l.length % 2 = 0) :
    medianQ l = ((l.insertionSort (· ≤ ·)).getD (l.length / 2 - 1) 0 +
      (l.insertionSort (· ≤ ·)).getD (l.length / 2) 0) / 2 := by
  simp only [medianQ]
  rw [if_neg (by omega)]

lemma getD_sort_mem (l : List ℚ) (i : ℕ) (h : i < l.length) :
    (l.insertionSort (· ≤ ·)).getD i 0 ∈ l := by
  have hl : i < (l.insertionSort (· ≤ ·)).length := by
    rw [List.length_insertionSort]; exact h
  rw [List.getD_eq_getElem _ _ hl]
  exact (List.mem_insertionSort _).mp (List.getElem_mem hl)

lemma medianQ_mem_Icc {l : List ℚ} {a b : ℚ} (hne : l ≠ [])
    (h : ∀ x ∈ l, a ≤ x ∧ x ≤ b) : a ≤ medianQ l ∧ medianQ l ≤ b := by
  have hn : 0 < l.length := List.length_pos.mpr hne
  rcases Nat.mod_two_eq_zero_or_one l.length with hpar | hpar
  · have m1 := h _ (getD_sort_mem l (l.length / 2 - 1) (by omega))
    have m2 := h _ (getD_sort_mem l (l.length / 2) (by omega))
    rw [medianQ_even hpar]
    constructor <;> linarith [m1.1, m1.2, m2.1, m2.2]
  · rw [medianQ_odd hpar]
    exact h _ (getD_sort_mem l (l.length / 2) (by omega))

lemma insertionSort_append_top (l : List ℚ) (y : ℚ) (h : ∀ x ∈ l, x ≤ y) :
    (l ++ [y]).insertionSort (· ≤ ·) = l.insertionSort (· ≤ ·) ++ [y] := by
  refine List.eq_of_perm_of_sorted ?_ (List.sorted_insertionSort _ _) ?_
  · exact (List.perm_insertionSort _ _).trans
      ((List.perm_insertionSort (· ≤ ·) l).append_right [y]).symm
  · refine List.pairwise_append.mpr
      ⟨List.sorted_insertionSort _ _, List.pairwise_singleton _ _, ?_⟩
    intro x hx z hz
    rw [List.mem_singleton] at hz
    subst hz
    exact h x ((List.mem_insertionSort _).mp hx)

lemma insertionSort_append_bot (l : List ℚ) (y : ℚ) (h : ∀ x ∈ l, y ≤ x) :
    (l ++ [y]).insertionSort (· ≤ ·) = y :: l.insertionSort (· ≤ ·) := by
  refine List.eq_of_perm_of_sorted ?_ (List.sorted_insertionSort _ _) ?_
  · exact (List.perm_insertionSort _ _).trans
      ((List.perm_append_singleton y l).trans
        ((List.perm_insertionSort (· ≤ ·) l).symm.cons y))
  · refine List.sorted_cons.mpr ⟨?_, List.sorted_insertionSort _ _⟩
    intro z hz
    exact h z ((List.mem_insertionSort _).mp hz)

lemma half_sub_lt {u v a b D : ℚ} (n : ℕ) (hu : a ≤ u ∧ u ≤ b)
    (hv : a ≤ v ∧ v ≤ b) (hn : 0 < n) (hfar : (n : ℚ) * (b - a) < 2 * D) :
    |(u - v) / 2| < D / n := by
  have hnQ : (0 : ℚ) < n := by exact_mod_cast hn
  have h1 : |u - v| ≤ b - a := abs_le.mpr ⟨by linarith, by linarith⟩
  have h2 : |(u - v) / 2| = |u - v| / 2 := by
    rw [abs_div]; norm_num
  have h3 : (b - a) / 2 < D / n := by
    rw [div_lt_div_iff₀ (by norm_num) hnQ]; linarith
  rw [h2]; linarith

lemma median_append_outlier (l : List ℚ) (y a b : ℚ) (hne : l ≠ [])
    (hmem : ∀ x ∈ l, a ≤ x ∧ x ≤ b) (hout : b < y ∨ y < a)
    (hfar : (l.length : ℚ) * (b - a) < 2 * |y - medianQ l|) :
    |medianQ (l ++ [y]) - medianQ l| < |y - medianQ l| / l.length := by
  have hn : 0 < l.length := List.length_pos.mpr hne
  have hnQ : (0 : ℚ) < (l.length : ℚ) := by exact_mod_cast hn
  obtain ⟨x0, hx0⟩ := List.exists_mem_of_ne_nil l hne
  have hab : a ≤ b := le_trans (hmem x0 hx0).1 (hmem x0 hx0).2
  have hD : 0 < |y - medianQ l| := by
    have : (0 : ℚ) ≤ (l.length : ℚ) * (b - a) :=
      mul_nonneg (le_of_lt hnQ) (by linarith)
    linarith
  have hmIcc := medianQ_mem_Icc hne hmem
  have hslen : (l.insertionSort (· ≤ ·)).length = l.length :=
    List.length_insertionSort _ _
  have hlen' : (l ++ [y]).length = l.length + 1 := by simp
  rcases hout with htop | hbot
  · -- the outlier lies above the cluster
    have hsort : (l ++ [y]).insertionSort (· ≤ ·) = l.insertionSort (· ≤ ·) ++ [y] :=
      insertionSort_append_top l y (fun x hx => le_trans (hmem x hx).2 (le_of_lt htop))
    rcases Nat.mod_two_eq_zero_or_one l.length with hpar | hpar
    · -- even cluster size: the new median is the upper middle order statistic
      have hm : medianQ l = ((l.insertionSort (· ≤ ·)).getD (l.length / 2 - 1) 0 +
          (l.insertionSort (· ≤ ·)).getD (l.length / 2) 0) / 2 := medianQ_even hpar
      have hidx : (l ++ [y]).length / 2 = l.length / 2 := by rw [hlen']; omega
      have hm' : medianQ (l ++ [y]) =
          (l.insertionSort (· ≤ ·)).getD (l.length / 2) 0 := by
        rw [medianQ_odd (by rw [hlen']; omega), hsort, hidx,
          List.getD_append _ _ _ _ (by omega)]
      have hu := hmem _ (getD_sort_mem l (l.length / 2) (by omega))
      have hv := hmem _ (getD_sort_mem l (l.length / 2 - 1) (by omega))
      have hdiff : medianQ (l ++ [y]) - medianQ l =
          ((l.insertionSort (· ≤ ·)).getD (l.length / 2) 0 -
            (l.insertionSort (· ≤ ·)).getD (l.length / 2 - 1) 0) / 2 := by
        rw [hm, hm']; ring
      rw [hdiff]
      exact half_sub_lt l.length hu hv hn hfar
    · -- odd cluster size
      have hm : medianQ l = (l.insertionSort (· ≤ ·)).getD (l.length / 2) 0 :=
        medianQ_odd hpar
      have hpar' : (l ++ [y]).length % 2 = 0 := by rw [hlen']; omega
      have hi1 : (l ++ [y]).length / 2 - 1 = l.length / 2 := by rw [hlen']; omega
      have hi2 : (l ++ [y]).length / 2 = l.length / 2 + 1 := by rw [hlen']; omega
      have hfirst : ((l.insertionSort (· ≤ ·)) ++ [y]).getD (l.length / 2) 0 =
          (l.insertionSort (· ≤ ·)).getD (l.length / 2) 0 :=
        List.getD_append _ _ _ _ (by omega)
      by_cases hone : l.length = 1
      · -- singleton cluster: the new median is the mean of the point and y
        have hsec : ((l.insertionSort (· ≤ ·)) ++ [y]).getD (l.length / 2 + 1) 0 = y := by
          rw [List.getD_append_right _ _ _ _ (by omega)]
          rw [hslen, hone]
          rfl
        have hm' : medianQ (l ++ [y]) =
            ((l.insertionSort (· ≤ ·)).getD (l.length / 2) 0 + y) / 2 := by
          rw [medianQ_even hpar', hsort, hi1, hi2, hfirst, hsec]
        have hdiff : medianQ (l ++ [y]) - medianQ l = (y - medianQ l) / 2 := by
          rw [hm', ← hm]; ring
        rw [hdiff, hone]
        have h2 : |(y - medianQ l) / 2| = |y - medianQ l| / 2 := by
          rw [abs_div]; norm_num
        rw [h2]
        push_cast
        rw [div_one]
        linarith
      · -- cluster of odd size at least 3
        have hsec : ((l.insertionSort (· ≤ ·)) ++ [y]).getD (l.length / 2 + 1) 0 =
            (l.insertionSort (· ≤ ·)).getD (l.length / 2 + 1) 0 :=
          List.getD_append _ _ _ _ (by omega)
        have hm' : medianQ (l ++ [y]) =
            ((l.insertionSort (· ≤ ·)).getD (l.length / 2) 0 +
              (l.insertionSort (· ≤ ·)).getD (l.length / 2 + 1) 0) / 2 := by
          rw [medianQ_even hpar', hsort, hi1, hi2, hfirst, hsec]
        have hu := hmem _ (getD_sort_mem l (l.length / 2 + 1) (by omega))
        have hv := hmem _ (getD_sort_mem l (l.length / 2) (by omega))
        have hdiff : medianQ (l ++ [y]) - medianQ l =
            ((l.insertionSort (· ≤ ·)).getD (l.length / 2 + 1) 0 -
              (l.insertionSort (· ≤ ·)).getD (l.length / 2) 0) / 2 := by
          rw [hm, hm']; ring
        rw [hdiff]
        exact half_sub_lt l.length hu hv hn hfar
  · -- the outlier lies below the cluster
    have hsort : (l ++ [y]).insertionSort (· ≤ ·) = y :: l.insertionSort (· ≤ ·) :=
      insertionSort_append_bot l y (fun x hx => le_trans (le_of_lt hbot) (hmem x hx).1)
    rcases Nat.mod_two_eq_zero_or_one l.length with hpar | hpar
    · -- even cluster size: the new median is the lower middle order statistic
      have hm : medianQ l = ((l.insertionSort (· ≤ ·)).getD (l.length / 2 - 1) 0 +
          (l.insertionSort (· ≤ ·)).getD (l.length / 2) 0) / 2 := medianQ_even hpar
      have hidx : (l ++ [y]).length / 2 = (l.length / 2 - 1) + 1 := by rw [hlen']; omega
      have hm' : medianQ (l ++ [y]) =
          (l.insertionSort (· ≤ ·)).getD (l.length / 2 - 1) 0 := by
        rw [medianQ_odd (by rw [hlen']; omega), hsort, hidx, List.getD_cons_succ]
      have hu := hmem _ (getD_sort_mem l (l.length / 2 - 1) (by omega))
      have hv := hmem _ (getD_sort_mem l (l.length / 2) (by omega))
      have hdiff : medianQ (l ++ [y]) - medianQ l =
          ((l.insertionSort (· ≤ ·)).getD (l.length / 2 - 1) 0 -
            (l.insertionSort (· ≤ ·)).getD (l.length / 2) 0) / 2 := by
        rw [hm, hm']; ring
      rw [hdiff]
      exact half_sub_lt l.length hu hv hn hfar
    · -- odd cluster size
      have hm : medianQ l = (l.insertionSort (· ≤ ·)).getD (l.length / 2) 0 :=
        medianQ_odd hpar
      have hpar' : (l ++ [y]).length % 2 = 0 := by rw [hlen']; omega
      have hi2 : (l ++ [y]).length / 2 = l.length / 2 + 1 := by rw [hlen']; omega
      have hsec : (y :: l.insertionSort (· ≤ ·)).getD (l.length / 2 + 1) 0 =
          (l.insertionSort (· ≤ ·)).getD (l.length / 2) 0 := List.getD_cons_succ
      by_cases hone : l.length = 1
      · have hi1 : (l ++ [y]).length / 2 - 1 = 0 := by rw [hlen']; omega
        have hm' : medianQ (l ++ [y]) =
            (y + (l.insertionSort (· ≤ ·)).getD (l.length / 2) 0) / 2 := by
          rw [medianQ_even hpar', hsort, hi1, hi2, hsec, List.getD_cons_zero]
        have hdiff : medianQ (l ++ [y]) - medianQ l = (y - medianQ l) / 2 := by
          rw [hm', ← hm]; ring
        rw [hdiff, hone]
        have h2 : |(y - medianQ l) / 2| = |y - medianQ l| / 2 := by
          rw [abs_div]; norm_num
        rw [h2]
        push_cast
        rw [div_one]
        linarith
      · have hi1 : (l ++ [y]).length / 2 - 1 = (l.length / 2 - 1) + 1 := by
          rw [hlen']; omega
        have hfirst : (y :: l.insertionSort (· ≤ ·)).getD ((l.length / 2 - 1) + 1) 0 =
            (l.insertionSort (· ≤ ·)).getD (l.length / 2 - 1) 0 := List.getD_cons_succ
        have hm' : medianQ (l ++ [y]) =
            ((l.insertionSort (· ≤ ·)).getD (l.length / 2 - 1) 0 +
              (l.insertionSort (· ≤ ·)).getD (l.length / 2) 0) / 2 := by
          rw [medianQ_even hpar', hsort, hi1, hi2, hfirst, hsec]
        have hu := hmem _ (getD_sort_mem l (l.length / 2 - 1) (by omega))
        have hv := hmem _ (getD_sort_mem l (l.length / 2) (by omega))
        have hdiff : medianQ (l ++ [y]) - medianQ l =
            ((l.insertionSort (· ≤ ·)).getD (l.length / 2 - 1) 0 -
              (l.insertionSort (· ≤ ·)).getD (l.length / 2) 0) / 2 := by
          rw [hm, hm']; ring
        rw [hdiff]
        exact half_sub_lt l.length hu hv hn hfar

/-! ### Helper lemmas about the transect intersector and the quality filter -/

lemma withinAlong_eq_abs (t : Transect) {ad : ℚ} (hunit : normSq t.dir = 1)
    (had : 0 ≤ ad) (v : Point) :
    withinAlong t ad v = decide (|crossT t v| ≤ ad) := by
  simp only [withinAlong, hunit, mul_one]
  rw [decide_eq_decide, sq_le_sq, abs_of_nonneg had]

lemma intersectDate_eq (t : Transect) (ad : ℚ) (pts : List Point) :
    intersectDate t ad pts =
      if pts.filter (withinAlong t ad) = [] then none
      else some (medianQ ((pts.filter (withinAlong t ad)).map (proj t))) := by
  cases h : pts.filter (withinAlong t ad) with
  | nil => simp [intersectDate, h]
  | cons x xs => simp [intersectDate, h]

lemma nearRef_iff (ref : List Point) (maxD : ℚ) (v : Point) :
    nearRef ref maxD v = true ↔ ∃ r ∈ ref, normSq (vsub v r) ≤ maxD ^ 2 := by
  simp [nearRef]

lemma qualityFilter_none_eq (len : List Point → ℚ) (minLen maxD : ℚ)
    (c : Contour) :
    qualityFilter len minLen none maxD c =
      if len c.points < minLen then none else some c := rfl

lemma qualityFilter_some_eq (len : List Point → ℚ) (minLen maxD : ℚ)
    (ref : List Point) (c : Contour) :
    qualityFilter len minLen (some ref) maxD c =
      if len c.points < minLen then none
      else if (c.points.filter (nearRef ref maxD)).length < 2 ∨
          len (c.points.filter (nearRef ref maxD)) < minLen then none
      else some { c with points := c.points.filter (nearRef ref maxD) } := rfl

lemma qualityFilter_some_len {len : List Point → ℚ} {minLen maxD : ℚ}
    {refSl : Option (List Point)} {c c' : Contour}
    (h : qualityFilter len minLen refSl maxD c = some c') :
    minLen ≤ len c'.points := by
  by_cases h1 : len c.points < minLen
  · cases refSl with
    | none => rw [qualityFilter_none_eq, if_pos h1] at h; cases h
    | some ref => rw [qualityFilter_some_eq, if_pos h1] at h; cases h
  · cases refSl with
    | none =>
      rw [qualityFilter_none_eq, if_neg h1] at h
      have := Option.some.inj h
      subst this
      exact not_lt.mp h1
    | some ref =>
      rw [qualityFilter_some_eq, if_neg h1] at h
      by_cases h2 : (c.points.filter (nearRef ref maxD)).length < 2 ∨
          len (c.points.filter (nearRef ref maxD)) < minLen
      · rw [if_pos h2] at h; cases h
      · rw [if_neg h2] at h
        have := Option.some.inj h
        subst this
        exact not_lt.mp (fun hcon => h2 (Or.inr hcon))

/-! ### Claim theorems -/

/-- C1: for every transect of the supplied set and every date of the
chronological collection, the series value produced by
`compute_intersection` is the median of the signed distances (projections
onto the transect's local axis from the transect origin) of exactly those
contour vertices of that date whose perpendicular distance `|crossT t v|`
to the transect's infinite line is at most `along_dist`; and the value is
the missing-value marker `none` iff no vertex of that date satisfies the
distance constraint.  The transect's axis direction is a unit vector, so
`proj` and `|crossT|` are the exact signed and perpendicular distances. -/
theorem compute_intersection_median_spec (coll : List Contour)
    (ts : List (Nat × Transect)) (ad : ℚ) (nm : Nat) (t : Transect)
    (hmem : (nm, t) ∈ ts) (hunit : normSq t.dir = 1) (had : 0 ≤ ad) :
    (nm, coll.map (fun c => intersectDate t ad c.points)) ∈
        compute_intersection coll ts ad ∧
    ∀ c ∈ coll,
      (intersectDate t ad c.points = none ↔
        ∀ v ∈ c.points, ¬ |crossT t v| ≤ ad) ∧
      ∀ sel, sel = c.points.filter (fun v => decide (|crossT t v| ≤ ad)) →
        sel ≠ [] →
        intersectDate t ad c.points = some (medianQ (sel.map (proj t))) := by
  constructor
  · exact List.mem_map.mpr ⟨(nm, t), hmem, rfl⟩
  · intro c _hc
    have hfeq : c.points.filter (withinAlong t ad) =
        c.points.filter (fun v => decide (|crossT t v| ≤ ad)) :=
      List.filter_congr (fun v _ => withinAlong_eq_abs t hunit had v)
    constructor
    · rw [intersectDate_eq]
      by_cases h : c.points.filter (withinAlong t ad) = []
      · rw [if_pos h]
        refine ⟨fun _ => ?_, fun _ => rfl⟩
        have hall := List.filter_eq_nil_iff.mp (hfeq ▸ h)
        intro v hv
        simpa using hall v hv
      · rw [if_neg h]
        refine ⟨fun hcontra => absurd hcontra (Option.some_ne_none _), fun hall => ?_⟩
        refine absurd ?_ h
        rw [hfeq]
        exact List.filter_eq_nil_iff.mpr (fun v hv => by simpa using hall v hv)
    · intro sel hsel hne
      have hne' : c.points.filter (withinAlong t ad) ≠ [] := by
        rw [hfeq, ← hsel]; exact hne
      rw [intersectDate_eq, if_neg hne', hfeq, ← hsel]

/-- Witness for C1 at a concrete collection and transect: the series for the
single transect appears in the mapping, and the single date's value is the
median of the projections of the selected vertices. -/
theorem compute_intersection_median_spec_w :
    ((0 : Nat), [exContour].map (fun c => intersectDate exTransect 1 c.points)) ∈
        compute_intersection [exContour] [(0, exTransect)] 1 ∧
    intersectDate exTransect 1 exContour.points =
      some (medianQ ((exContour.points.filter
        (fun v => decide (|crossT exTransect v| ≤ 1))).map (proj exTransect))) := by
  have h := compute_intersection_median_spec [exContour] [(0, exTransect)] 1 0
    exTransect (by decide) (by norm_num [exTransect, normSq]) (by norm_num)
  exact ⟨h.1, (h.2 exContour (by decide)).2 _ rfl
    (by simp [exContour, exTransect, crossT, crossZ, vsub])⟩

/-- C2: after `remove_duplicates`, at most one contour per (date, satellite)
pair remains; every retained entry has the lowest georeferencing accuracy
within its (date, satellite) group; the retained entry is the first
encountered among ties (every earlier entry of its group has strictly
greater accuracy); and every group of the input is represented. -/
theorem remove_duplicates_spec (l : List Contour) :
    (remove_duplicates l).Pairwise (fun a b => sameKey a b = false) ∧
    (∀ c ∈ remove_duplicates l, c ∈ l ∧
      ∀ p ∈ l, sameKey p c = true → c.geoaccuracy ≤ p.geoaccuracy) ∧
    (∀ c ∈ remove_duplicates l, ∃ l1 l2, l = l1 ++ c :: l2 ∧
      ∀ p ∈ l1, sameKey p c = true → c.geoaccuracy < p.geoaccuracy) ∧
    (∀ c ∈ l, ∃ c' ∈ remove_duplicates l, sameKey c c' = true) := by
  refine ⟨dedupAux_pairwise l [], fun c hc => dedupAux_mem hc, ?_, ?_⟩
  · intro c hc
    obtain ⟨l1, l2, hsplit, h1, _⟩ := dedupAux_decomp hc
    exact ⟨l1, l2, hsplit, fun p hp => h1 p (by simpa using hp)⟩
  · intro c hc
    obtain ⟨l1, c', l2, hsplit, hkey, hstrict, hle⟩ := exists_first_min hc
    refine ⟨c', ?_, hkey⟩
    rw [hsplit]
    exact dedupAux_keep (fun p hp => hstrict p (by simpa using hp)) hle

/-- Witness for C2 at a concrete collection with two duplicates of
accuracies 5 and 12: the entry with accuracy 5 is retained and its accuracy
is a lower bound for the group. -/
theorem remove_duplicates_spec_w :
    (Contour.mk 1 1 5 []) ∈ [Contour.mk 1 1 5 [], Contour.mk 1 1 12 []] ∧
    (Contour.mk 1 1 5 []).geoaccuracy ≤ (Contour.mk 1 1 12 []).geoaccuracy :=
  ⟨((remove_duplicates_spec [Contour.mk 1 1 5 [], Contour.mk 1 1 12 []]).2.1
      (Contour.mk 1 1 5 []) (by decide)).1,
   ((remove_duplicates_spec [Contour.mk 1 1 5 [], Contour.mk 1 1 12 []]).2.1
      (Contour.mk 1 1 5 []) (by decide)).2 (Contour.mk 1 1 12 [])
      (by decide) (by decide)⟩

/-- C3: a candidate contour whose total length is below `min_length_sl` is
discarded entirely by the quality filter; consequently every contour of the
filtered output, and every contour of the chronological collection built
from it, has length at least `min_length_sl`. -/
theorem min_length_filter_spec (len : List Point → ℚ) (minLen maxD thr : ℚ)
    (refSl : Option (List Point)) (cands : List Contour) :
    (∀ c, len c.points < minLen →
      qualityFilter len minLen refSl maxD c = none) ∧
    (∀ c ∈ cands.filterMap (qualityFilter len minLen refSl maxD),
      minLen ≤ len c.points) ∧
    (∀ c ∈ chronoCollection len minLen refSl maxD thr cands,
      minLen ≤ len c.points) := by
  have hsome : ∀ c ∈ cands.filterMap (qualityFilter len minLen refSl maxD),
      minLen ≤ len c.points := by
    intro c hc
    obtain ⟨c0, _, hq⟩ := List.mem_filterMap.mp hc
    exact qualityFilter_some_len hq
  refine ⟨?_, hsome, ?_⟩
  · intro c h
    cases refSl with
    | none => rw [qualityFilter_none_eq, if_pos h]
    | some ref => rw [qualityFilter_some_eq, if_pos h]
  · intro c hc
    have hc1 : c ∈ remove_duplicates
        (cands.filterMap (qualityFilter len minLen refSl maxD)) :=
      (List.mem_filter.mp hc).1
    exact hsome c (dedupAux_mem hc1).1

/-- Witness for C3: a single-vertex contour (count-length 1) is dropped by
the filter with `min_length_sl = 2`. -/
theorem min_length_filter_spec_w :
    qualityFilter countLen 2 none 0 exContour = none :=
  (min_length_filter_spec countLen 2 0 10 none []).1 exContour
    (by norm_num [countLen, exContour])

/-- C4: for a contour passing the length test, with a reference shoreline
configured the quality filter keeps exactly the vertices within
`max_dist_ref` of some reference vertex (squared-distance form over ℚ);
the whole contour is dropped when fewer than 2 vertices survive or the
trimmed contour falls below the length constraint; and every vertex of a
retained contour lies within `max_dist_ref` of some reference vertex. -/
theorem reference_filter_spec (len : List Point → ℚ) (minLen maxD : ℚ)
    (ref : List Point) (c : Contour) (hpass : ¬ len c.points < minLen) :
    (∀ c', qualityFilter len minLen (some ref) maxD c = some c' →
      c'.points = c.points.filter (nearRef ref maxD) ∧
      2 ≤ c'.points.length ∧ minLen ≤ len c'.points ∧
      ∀ v ∈ c'.points, ∃ r ∈ ref, normSq (vsub v r) ≤ maxD ^ 2) ∧
    ((c.points.filter (nearRef ref maxD)).length < 2 ∨
        len (c.points.filter (nearRef ref maxD)) < minLen →
      qualityFilter len minLen (some ref) maxD c = none) ∧
    (∀ v ∈ c.points,
      (v ∈ c.points.filter (nearRef ref maxD) ↔
        ∃ r ∈ ref, normSq (vsub v r) ≤ maxD ^ 2)) := by
  refine ⟨?_, ?_, ?_⟩
  · intro c' h
    rw [qualityFilter_some_eq, if_neg hpass] at h
    by_cases h2 : (c.points.filter (nearRef ref maxD)).length < 2 ∨
        len (c.points.filter (nearRef ref maxD)) < minLen
    · rw [if_pos h2] at h; cases h
    · rw [if_neg h2] at h
      have hc' := Option.some.inj h
      subst hc'
      refine ⟨rfl, ?_, ?_, ?_⟩
      · exact not_lt.mp (fun hcon => h2 (Or.inl hcon))
      · exact not_lt.mp (fun hcon => h2 (Or.inr hcon))
      · intro v hv
        exact (nearRef_iff ref maxD v).mp (List.mem_filter.mp hv).2
  · intro h2
    rw [qualityFilter_some_eq, if_neg hpass, if_pos h2]
  · intro v hv
    rw [List.mem_filter, nearRef_iff]
    exact ⟨fun h => h.2, fun h => ⟨hv, h⟩⟩

/-- Witness for C4 at a concrete contour and reference shoreline: both
vertices lie within distance 1 of the reference vertex, so the retained
contour keeps exactly the filtered vertex list, has at least 2 vertices
and passes the length constraint. -/
theorem reference_filter_spec_w :
    (Contour.mk 1 1 5 [(0, 0), (1, 0)]).points =
      (Contour.mk 1 1 5 [(0, 0), (1, 0)]).points.filter (nearRef [(0, 0)] 1) ∧
    2 ≤ (Contour.mk 1 1 5 [(0, 0), (1, 0)]).points.length ∧
    (0 : ℚ) ≤ countLen (Contour.mk 1 1 5 [(0, 0), (1, 0)]).points := by
  have h := (reference_filter_spec countLen 0 1 [(0, 0)]
      (Contour.mk 1 1 5 [(0, 0), (1, 0)]) (by norm_num [countLen])).1
    (Contour.mk 1 1 5 [(0, 0), (1, 0)])
    (by norm_num [qualityFilter, nearRef, vsub, normSq, countLen, List.filter])
  exact ⟨h.1, h.1 ▸ h.2.1, h.1 ▸ h.2.2.1⟩

/-- C5: both aggregation passes are idempotent: re-running
`remove_duplicates` or `remove_inaccurate_georef` on its own output returns
that output unchanged. -/
theorem dedup_georef_idempotent (l : List Contour) (thr : ℚ) :
    remove_duplicates (remove_duplicates l) = remove_duplicates l ∧
    remove_inaccurate_georef (remove_inaccurate_georef l thr) thr =
      remove_inaccurate_georef l thr := by
  constructor
  · exact dedupAux_id (dedupAux_pairwise l [])
      (fun p hp => absurd hp (List.not_mem_nil p))
  · simp [remove_inaccurate_georef, List.filter_filter]

/-- C6: the per-transect series returned by `compute_intersection` are all
indexed by the full date index of the chronological collection: the mapping
keeps the transect keys in order, and every series has exactly one entry
(possibly the missing-value marker) per date of the collection. -/
theorem compute_intersection_aligned (coll : List Contour)
    (ts : List (Nat × Transect)) (ad : ℚ) :
    (compute_intersection coll ts ad).map Prod.fst = ts.map Prod.fst ∧
    ∀ e ∈ compute_intersection coll ts ad, e.2.length = coll.length := by
  constructor
  · simp [compute_intersection]
  · intro e he
    obtain ⟨nt, _, rfl⟩ := List.mem_map.mp he
    exact List.length_map _ _

/-- Witness for C6: the single transect's series over a one-date collection
has length 1. -/
theorem compute_intersection_aligned_w :
    ((0 : Nat), [(none : Option ℚ)]).2.length = [exFarContour].length :=
  (compute_intersection_aligned [exFarContour] [(0, exTransect)] 1).2
    (0, [(none : Option ℚ)])
    (by norm_num [compute_intersection, intersectDate, withinAlong, crossT,
      crossZ, vsub, normSq, exFarContour, exTransect, List.filter])

/-- C7: a coordinate-reference-system mismatch among scene, reference
shoreline and transects is a hard, fail-fast error of the pipeline; when
the systems agree the pipeline computes on the inputs exactly as given —
no entity is reprojected. -/
theorem crs_mismatch_hard_failure (len : List Point → ℚ)
    (minLen maxD thr ad : ℚ) (scene : Projected (List Contour))
    (ref : Projected (List Point)) (trs : Projected (List (Nat × Transect))) :
    (¬ (scene.crs = ref.crs ∧ scene.crs = trs.crs) →
      runPipeline len minLen maxD thr ad scene ref trs =
        Except.error PipelineError.crsMismatch) ∧
    ((scene.crs = ref.crs ∧ scene.crs = trs.crs) →
      runPipeline len minLen maxD thr ad scene ref trs =
        Except.ok (compute_intersection
          (chronoCollection len minLen (some ref.val) maxD thr scene.val)
          trs.val ad)) := by
  constructor
  · intro h
    rw [runPipeline, if_neg h]
  · intro h
    rw [runPipeline, if_pos h]

/-- Witness for C7: with scene in EPSG 3857 and reference shoreline in
EPSG 4326 the pipeline fails hard with the mismatch error. -/
theorem crs_mismatch_hard_failure_w :
    runPipeline countLen 0 0 10 1 ⟨3857, []⟩ ⟨4326, []⟩ ⟨3857, []⟩ =
      Except.error PipelineError.crsMismatch :=
  (crs_mismatch_hard_failure countLen 0 0 10 1 ⟨3857, []⟩ ⟨4326, []⟩
    ⟨3857, []⟩).1 (by decide)

/-- C8: changing the substrate mode (default / dark / bright) never changes
the water/land classification of any pixel (nor which pixels are
unclassified): the substrate mode only shifts the sand decision boundary
used for the sand mask. -/
theorem substrate_mode_water_invariant (m1 m2 : SubstrateMode)
    (waterThresh sandThresh : ℚ) (p : Pixel) :
    (classifyPixel m1 waterThresh sandThresh p = Label.water ↔
      classifyPixel m2 waterThresh sandThresh p = Label.water) ∧
    (classifyPixel m1 waterThresh sandThresh p = Label.unclassified ↔
      classifyPixel m2 waterThresh sandThresh p = Label.unclassified) := by
  unfold classifyPixel
  split_ifs <;> simp_all

/-- C9: adding one far-outlier vertex to a tight cluster of `n` selected
vertices changes the median cross-shore distance computed by the transect
intersector by strictly less than the outlier's deviation divided by `n`.
The cluster's projections lie in `[a, b]`; tightness of the cluster
relative to the outlier's deviation `d` is formalised as `n·(b − a) < 2·d`,
and the outlier's projection lies outside `[a, b]`. -/
theorem median_outlier_robust (t : Transect) (ad : ℚ) (pts : List Point)
    (v0 : Point) (a b d : ℚ) (hne : pts ≠ [])
    (hin : ∀ v ∈ pts, withinAlong t ad v = true)
    (hin0 : withinAlong t ad v0 = true)
    (hbnd : ∀ v ∈ pts, a ≤ proj t v ∧ proj t v ≤ b)
    (hout : b < proj t v0 ∨ proj t v0 < a)
    (hd : d = |proj t v0 - medianQ (pts.map (proj t))|)
    (hfar : (pts.length : ℚ) * (b - a) < 2 * d) :
    intersectDate t ad pts = some (medianQ (pts.map (proj t))) ∧
    intersectDate t ad (pts ++ [v0]) =
      some (medianQ (pts.map (proj t) ++ [proj t v0])) ∧
    |medianQ (pts.map (proj t) ++ [proj t v0]) - medianQ (pts.map (proj t))| <
      d / pts.length := by
  have hfil : pts.filter (withinAlong t ad) = pts := List.filter_eq_self.mpr hin
  have hfil' : (pts ++ [v0]).filter (withinAlong t ad) = pts ++ [v0] := by
    refine List.filter_eq_self.mpr ?_
    intro v hv
    rcases List.mem_append.mp hv with h | h
    · exact hin v h
    · rw [List.mem_singleton] at h
      subst h
      exact hin0
  have hmap : (pts ++ [v0]).map (proj t) = pts.map (proj t) ++ [proj t v0] := by
    simp
  refine ⟨?_, ?_, ?_⟩
  · rw [intersectDate_eq, if_neg (by rw [hfil]; exact hne), hfil]
  · rw [intersectDate_eq,
      if_neg (by rw [hfil']; exact List.append_ne_nil_of_right_ne_nil _ (by simp)),
      hfil', hmap]
  · have hlen : (pts.map (proj t)).length = pts.length := List.length_map _ _
    have hmem' : ∀ x ∈ pts.map (proj t), a ≤ x ∧ x ≤ b := by
      intro x hx
      obtain ⟨v, hv, rfl⟩ := List.mem_map.mp hx
      exact hbnd v hv
    have hnen : pts.map (proj t) ≠ [] := by
      intro hcon
      exact hne (List.map_eq_nil_iff.mp hcon)
    have := median_append_outlier (pts.map (proj t)) (proj t v0) a b hnen hmem'
      hout (by rw [hlen, ← hd]; exact hfar)
    rw [hlen, ← hd] at this
    exact this

/-- Witness for C9: a cluster of three coincident vertices on the transect
axis and one outlier vertex five units along the axis; the median moves by
0, which is less than 5/3. -/
theorem median_outlier_robust_w :
    intersectDate exTransect 1 exCluster.points =
      some (medianQ (exCluster.points.map (proj exTransect))) ∧
    intersectDate exTransect 1 (exCluster.points ++ [(5, 0)]) =
      some (medianQ (exCluster.points.map (proj exTransect) ++
        [proj exTransect (5, 0)])) ∧
    |medianQ (exCluster.points.map (proj exTransect) ++
        [proj exTransect (5, 0)]) -
      medianQ (exCluster.points.map (proj exTransect))| <
      5 / exCluster.points.length :=
  median_outlier_robust exTransect 1 exCluster.points (5, 0) 0 0 5
    (by simp [exCluster])
    (by norm_num [exCluster, withinAlong, crossT, crossZ, vsub, normSq,
      exTransect])
    (by norm_num [withinAlong, crossT, crossZ, vsub, normSq, exTransect])
    (by norm_num [exCluster, proj, dot, vsub, exTransect])
    (by norm_num [proj, dot, vsub, exTransect])
    (by norm_num [exCluster, proj, dot, vsub, exTransect, medianQ,
      List.insertionSort, List.orderedInsert])
    (by norm_num [exCluster])

/-- C10: the mapping returned by `compute_intersection` contains an entry
for every supplied transect name, each series spanning the full date index;
a transect whose every date has no selected vertex is still present, with a
full-length series of missing-value markers (`none`, the embedding of the
floating-point NaN marker). -/
theorem compute_intersection_all_transects (coll : List Contour)
    (ts : List (Nat × Transect)) (ad : ℚ) (nm : Nat) (t : Transect)
    (hmem : (nm, t) ∈ ts) :
    (nm, coll.map (fun c => intersectDate t ad c.points)) ∈
      compute_intersection coll ts ad ∧
    (coll.map (fun c => intersectDate t ad c.points)).length = coll.length ∧
    ((∀ c ∈ coll, ∀ v ∈ c.points, withinAlong t ad v = false) →
      (nm, List.replicate coll.length (none : Option ℚ)) ∈
        compute_intersection coll ts ad) := by
  refine ⟨List.mem_map.mpr ⟨(nm, t), hmem, rfl⟩, List.length_map _ _, ?_⟩
  intro hall
  have h1 : coll.map (fun c => intersectDate t ad c.points) =
      List.replicate coll.length (none : Option ℚ) := by
    have h2 : coll.map (fun c => intersectDate t ad c.points) =
        coll.map (fun _ => (none : Option ℚ)) := by
      refine List.map_congr_left ?_
      intro c hc
      rw [intersectDate_eq, if_pos]
      refine List.filter_eq_nil_iff.mpr ?_
      intro v hv
      rw [hall c hc v hv]
      simp
    rw [h2, List.map_const']
  rw [← h1]
  exact List.mem_map.mpr ⟨(nm, t), hmem, rfl⟩

/-- Witness for C10: a transect that selects no vertex at the only date is
still present in the mapping, with the full-length all-missing series. -/
theorem compute_intersection_all_transects_w :
    ((0 : Nat), List.replicate [exFarContour].length (none : Option ℚ)) ∈
      compute_intersection [exFarContour] [(0, exTransect)] 1 :=
  (compute_intersection_all_transects [exFarContour] [(0, exTransect)] 1 0
    exTransect (by decide)).2.2
    (by norm_num [exFarContour, withinAlong, crossT, crossZ, vsub, normSq,
      exTransect])
